import Mathlib

/-!
Verification of `emcee_xspec.py` (xspec_emcee): a shallow embedding of the
program's data model and operations, together with theorems settling the
specification's claims about it.

Numeric values (parameter values, log-likelihoods) are embedded as
rationals.  The numeric text rendering performed by Python's `%g`
conversion is abstracted as a parameter `fmtG : ℚ → String`, since no
claim depends on the digits it produces.
-/

namespace XspecEmcee

/-- One entry of the parameter catalogue (`pool.params` in the source):
a Python dictionary of which `writeXSpecChain` reads the keys `name`
and `unit`. -/
structure ParamDesc where
  name : String
  unit : String
deriving DecidableEq

/-- Python list indexing `l[i]`: a negative index counts from the end of
the list, and an index that is still out of range raises `IndexError`,
modelled as `none`. -/
def pyGet {α : Type _} (l : List α) (i : Int) : Option α :=
  let j := if i < 0 then i + l.length else i
  if j < 0 then none else l[j.toNat]?

/-- Helper of `pySplit`: splits a character list on whitespace runs,
dropping empty tokens; `acc` holds the current token reversed. -/
def splitWSAux (acc : List Char) : List Char → List (List Char)
  | [] => if acc = [] then [] else [acc.reverse]
  | c :: cs =>
    if c.isWhitespace then
      if acc = [] then splitWSAux [] cs else acc.reverse :: splitWSAux [] cs
    else splitWSAux (c :: acc) cs

/-- Python `str.split()` with no argument (the `args.systems.split()`
call in `main`): split on runs of whitespace, discarding empty tokens. -/
def pySplit (s : String) : List String :=
  (splitWSAux [] s.toList).map (fun cs => String.mk cs)

/-- The value of `args.systems` in `main`: the command-line value when
`--systems` was given, else the argparse default `"localhost"`. -/
def systemsValue (cmdline : Option String) : String :=
  cmdline.getD "localhost"

/-- The host list handed to `emcee_pool.Pool` in `main`:
`args.systems.split()`. -/
def hostList (cmdline : Option String) : List String :=
  pySplit (systemsValue cmdline)

/-- Round a rational to the nearest integer, ties to even: the IEEE
round-to-nearest-even rule on an integer-scaled grid. -/
def rne (x : ℚ) : ℤ :=
  let f := ⌊x⌋
  if x - f < 1 / 2 then f
  else if (1 : ℚ) / 2 < x - f then f + 1
  else if f % 2 = 0 then f else f + 1

/-- The exponent of one unit in the last place of a binary64 value of
magnitude `|q|`: `2 ^ (e - 52)` in the binade `2 ^ e ≤ |q| < 2 ^ (e+1)`,
clamped below at the subnormal spacing `2 ^ (-1074)`. -/
def ulpExp (q : ℚ) : ℤ := max (Int.log 2 |q| - 52) (-1074)

/-- Round a rational to the nearest IEEE binary64 value
(round-to-nearest, ties to even), including gradual underflow to zero
below half the smallest subnormal.  The exponent range is unbounded
above, which agrees with binary64 whenever the result does not
overflow; the only products rounded here scale a finite double by the
double 0.01 < 1, which cannot overflow. -/
def roundF64 (q : ℚ) : ℚ :=
  if q = 0 then 0 else rne (q / 2 ^ ulpExp q) * 2 ^ ulpExp q

/-- The binary64 value of the Python literal `0.01` in `doMCMC`. -/
def c001 : ℚ := roundF64 (1 / 100)

/-- IEEE binary64 multiplication: the exact product rounded to nearest,
ties to even. -/
def fmul (a b : ℚ) : ℚ := roundF64 (a * b)

/-- `parerrs = N.where(parvals == 0., 0.01, parvals * 0.01)` in `doMCMC`
under numpy float64 semantics: the per-parameter perturbation scale is
the binary64 product of the initial value and the double 0.01, with the
double 0.01 substituted where the initial value equals zero. -/
def parerrs (parvals : List ℚ) : List ℚ :=
  parvals.map (fun v => if v = 0 then c001 else fmul v c001)

/-- `N.random.normal(loc, scale)` on two arrays of equal length: one draw
per position; `z j` abstracts the standard-normal draw at position `j`. -/
def numpyNormal (z : ℕ → ℚ) (loc scale : List ℚ) : List ℚ :=
  (List.range loc.length).map (fun j => loc.getD j 0 + scale.getD j 0 * z j)

/-- `p0 = [N.random.normal(parvals, parerrs) for i in xrange(nwalkers)]`
in `doMCMC`: the initial batch of walker positions; `z i` is the draw
stream of walker `i`. -/
def p0 (z : ℕ → ℕ → ℚ) (parvals : List ℚ) (nwalkers : ℕ) : List (List ℚ) :=
  (List.range nwalkers).map (fun i => numpyNormal (z i) parvals (parerrs parvals))

/-- `chain.shape[0]` of the sampler's chain array modelled as nested
lists. -/
def shape0 (c : List (List (List ℚ))) : ℕ := c.length

/-- `chain.shape[1]` of the chain array (length of the first walker's
iteration list; numpy arrays are rectangular). -/
def shape1 (c : List (List (List ℚ))) : ℕ := (c.headD []).length

/-- `chain.shape[2]` of the chain array (length of the first stored
parameter vector). -/
def shape2 (c : List (List (List ℚ))) : ℕ := ((c.headD []).headD []).length

/-- One walker's slice of `N.dstack((chain, N.expand_dims(-lnprob, 2)))`:
row `i` is `chain[w][i]` with `-lnprob[w][i]` appended. -/
def zipRows : List (List ℚ) → List ℚ → List (List ℚ)
  | [], _ => []
  | _ :: _, [] => []
  | r :: rs, v :: vs => (r ++ [-v]) :: zipRows rs vs

/-- All rows of the dstacked array, iterated walker-major exactly as the
nested `for w, walker in enumerate(...): for line in walker:` loop of
`writeXSpecChain` does. -/
def dstackRows : List (List (List ℚ)) → List (List ℚ) → List (List ℚ)
  | [], _ => []
  | _ :: _, [] => []
  | w :: ws, l :: ls => zipRows w l ++ dstackRows ws ls

/-- First fixed comment line of the chain file. -/
def bannerLine1 : String :=
  "! Markov chain file generated by xspec \"chain\" command."

/-- Second fixed comment line of the chain file. -/
def bannerLine2 : String :=
  "!    Do not modify, else file may not reload properly."

/-- The `'!Length: %i  Width: %i' % (length, width+1)` line; the source
passes `length` and `width + 1` as the two conversions. -/
def lengthLine (l w : ℕ) : String :=
  "!Length: " ++ toString l ++ "  Width: " ++ toString w

/-- One `"%i %s %s" % (idx, params[idx-1]['name'], unit-or-"0")` header
entry of `writeXSpecChain`; `none` models the `IndexError` raised by
`params[idx-1]` for an index outside the catalogue. -/
def headerEntry (params : List ParamDesc) (idx : Int) : Option String :=
  match pyGet params (idx - 1) with
  | none => none
  | some p =>
    some (toString idx ++ " " ++ p.name ++ " "
          ++ (if p.unit = "" then "0" else p.unit))

/-- The `for idx in paridxs: hdr.append(...)` loop of `writeXSpecChain`. -/
def headerEntries (params : List ParamDesc) : List Int → Option (List String)
  | [] => some []
  | idx :: rest =>
    match headerEntry params idx, headerEntries params rest with
    | some e, some es => some (e :: es)
    | _, _ => none

/-- The lines of the chain file produced by `writeXSpecChain` (without
trailing newlines); `fmtG` stands for Python's `%g` conversion.  `none`
models a raised `IndexError` from an invalid parameter index. -/
def writeXSpecChain (fmtG : ℚ → String) (chain : List (List (List ℚ)))
    (lnprob : List (List ℚ)) (params : List ParamDesc)
    (paridxs : List Int) : Option (List String) :=
  match headerEntries params paridxs with
  | none => none
  | some hdr =>
    some ([bannerLine1, bannerLine2,
           lengthLine (shape0 chain * shape1 chain) (shape2 chain + 1),
           "!" ++ String.intercalate " " (hdr ++ ["Chi-Squared"])]
          ++ (dstackRows chain lnprob).map
              (fun row => String.intercalate "\t" (row.map fmtG)))

/-- Modelled from the spec: the per-item retry loop of the evaluation
pool (`emcee_pool.Pool` is not under src/).  `ev n` is the outcome of
attempt number `n` for the item (`none` = failed evaluation); attempts
are made in order starting from `a` while `fuel` attempts remain, and
the first success wins. -/
def attemptEval (ev : ℕ → Option ℚ) : ℕ → ℕ → Option ℚ
  | _, 0 => none
  | a, fuel + 1 =>
    match ev a with
    | some r => some r
    | none => attemptEval ev (a + 1) fuel

/-- Modelled from the spec: the number of attempts the retry loop of
`attemptEval` actually makes. -/
def attemptsUsed (ev : ℕ → Option ℚ) : ℕ → ℕ → ℕ
  | _, 0 => 0
  | a, fuel + 1 =>
    match ev a with
    | some _ => 1
    | none => attemptsUsed ev (a + 1) fuel + 1

/-- Modelled from the spec: one batch item's evaluation by the pool with
retry bound `retryBound` — at most `retryBound + 1` attempts. -/
def evalItem {α : Type _} (ev : α → ℕ → Option ℚ) (retryBound : ℕ)
    (v : α) : Option ℚ :=
  attemptEval (ev v) 0 (retryBound + 1)

/-- Modelled from the spec: the number of attempts the pool makes on a
single batch item `v`. -/
def itemAttempts {α : Type _} (ev : α → ℕ → Option ℚ) (retryBound : ℕ)
    (v : α) : ℕ :=
  attemptsUsed (ev v) 0 (retryBound + 1)

/-- Modelled from the spec: `Pool.evaluate(batch)` collects one result
per batch index in input order (a write-once slot per index); any item
that exhausts its retries aborts the whole batch (`none`). -/
def poolEvaluate {α : Type _} (ev : α → ℕ → Option ℚ) (retryBound : ℕ) :
    List α → Option (List ℚ)
  | [] => some []
  | v :: vs =>
    match evalItem ev retryBound v, poolEvaluate ev retryBound vs with
    | some r, some rs => some (r :: rs)
    | _, _ => none

/-- A concrete stand-in for the `%g` conversion, used to instantiate the
chain-file theorems on concrete data. -/
def cfmt : ℚ → String := fun _ => "#"

/-- A concrete 2-walker, 2-iteration, 1-parameter chain array. -/
def chainEx : List (List (List ℚ)) := [[[1], [2]], [[3], [4]]]

/-- Log-likelihoods matching `chainEx`. -/
def lnprobEx : List (List ℚ) := [[5, 6], [7, 8]]

/-- A concrete one-entry parameter catalogue. -/
def paramsEx : List ParamDesc := [⟨"nH", ""⟩]

/-- The free-parameter indices matching `paramsEx` (1-based). -/
def paridxsEx : List Int := [1]

/-- Tokens produced by `splitWSAux` are nonempty and contain no
whitespace characters, provided the accumulator does not either. -/
lemma splitWSAux_tokens (cs : List Char) : ∀ acc : List Char,
    (∀ c ∈ acc, c.isWhitespace = false) →
    ∀ t ∈ splitWSAux acc cs, t ≠ [] ∧ ∀ c ∈ t, c.isWhitespace = false := by
  induction cs with
  | nil =>
    intro acc hacc t ht
    by_cases h : acc = []
    · simp [splitWSAux, h] at ht
    · simp only [splitWSAux, if_neg h, List.mem_singleton] at ht
      subst ht
      refine ⟨by simpa using h, ?_⟩
      intro c hc
      exact hacc c (List.mem_reverse.mp hc)
  | cons c cs ih =>
    intro acc hacc t ht
    by_cases hw : c.isWhitespace
    · by_cases h : acc = []
      · simp only [splitWSAux, if_pos hw, if_pos h] at ht
        exact ih [] (by simp) t ht
      · simp only [splitWSAux, if_pos hw, if_neg h, List.mem_cons] at ht
        rcases ht with rfl | ht
        · refine ⟨by simpa using h, ?_⟩
          intro d hd
          exact hacc d (List.mem_reverse.mp hd)
        · exact ih [] (by simp) t ht
    · simp only [splitWSAux, if_neg hw] at ht
      refine ih (c :: acc) ?_ t ht
      intro d hd
      rcases List.mem_cons.mp hd with rfl | hd2
      · simpa using hw
      · exact hacc d hd2

/-- C5 (counterexample): an explicitly empty `--systems` value produces
the empty host list, not the single-local-worker list `["localhost"]`
the claim asserts. -/
theorem hostList_empty_counterexample :
    hostList (some "") = [] ∧ hostList (some "") ≠ ["localhost"] := by
  decide

/-- C5 (amended): an unspecified `--systems` yields the host list
`["localhost"]`; a given value yields one host identifier per
whitespace-separated token, each nonempty and whitespace-free — so an
explicitly empty value yields an empty host list rather than a local
worker. -/
theorem hostList_amended (s : String) :
    hostList none = ["localhost"] ∧ hostList (some "") = [] ∧
    ∀ t ∈ hostList (some s),
      t ≠ "" ∧ ∀ c ∈ t.toList, c.isWhitespace = false := by
  refine ⟨by decide, by decide, ?_⟩
  intro t ht
  simp only [hostList, systemsValue, Option.getD_some, pySplit,
    List.mem_map] at ht
  obtain ⟨cs, hcs, rfl⟩ := ht
  have h := splitWSAux_tokens s.toList [] (by simp) cs hcs
  constructor
  · intro hmk
    apply h.1
    have hdata : (String.mk cs).data = ("" : String).data := by rw [hmk]
    simpa using hdata
  · intro c hc
    exact h.2 c hc

/-- Witness for `hostList_amended` at a concrete host string. -/
theorem hostList_amended_witness :
    hostList none = ["localhost"] ∧ ("h1" : String) ≠ "" :=
  ⟨(hostList_amended "h1 h2").1,
   ((hostList_amended "h1 h2").2.2 "h1" (by decide)).1⟩

/-- `rne` returns the floor when the fractional part is below one
half. -/
lemma rne_eq_of (x : ℚ) (f : ℤ) (h1 : (f : ℚ) ≤ x)
    (h2 : x - f < 1 / 2) : rne x = f := by
  have hfl : ⌊x⌋ = f := Int.floor_eq_iff.mpr ⟨h1, by linarith⟩
  simp only [rne, hfl, if_pos h2]

/-- `rne` rounds up when the fractional part exceeds one half. -/
lemma rne_eq_succ_of (x : ℚ) (f : ℤ) (h1 : (f : ℚ) ≤ x)
    (h1b : x < f + 1) (h2 : 1 / 2 < x - f) : rne x = f + 1 := by
  have hfl : ⌊x⌋ = f := Int.floor_eq_iff.mpr ⟨h1, by linarith⟩
  simp only [rne, hfl]
  rw [if_neg (by linarith), if_pos h2]

/-- `Int.log` is pinned by a two-sided power-of-two bound. -/
lemma int_log_eq (q : ℚ) (e : ℤ) (h0 : 0 < q) (h1 : (2 : ℚ) ^ e ≤ q)
    (h2 : q < (2 : ℚ) ^ (e + 1)) : Int.log 2 q = e := by
  have ha : e ≤ Int.log 2 q :=
    (Int.zpow_le_iff_le_log (by norm_num) h0).mp (by push_cast; exact h1)
  have hb : Int.log 2 q < e + 1 :=
    (Int.lt_zpow_iff_log_lt (by norm_num) h0).mp (by push_cast; exact h2)
  omega

/-- `1/100` lies in the binade `[2^-7, 2^-6)`. -/
lemma log_hundredth : Int.log 2 ((1 : ℚ) / 100) = -7 :=
  int_log_eq ((1 : ℚ) / 100) (-7) (by norm_num) (by norm_num) (by norm_num)

/-- The double nearest to `1/100`: significand 5764607523034235 at scale
`2^-59`. -/
lemma c001_eq : c001 = 5764607523034235 / 2 ^ 59 := by
  rw [c001, roundF64, if_neg (by norm_num)]
  have habs : |(1 : ℚ) / 100| = 1 / 100 := by norm_num
  have hulp : ulpExp ((1 : ℚ) / 100) = -59 := by
    rw [ulpExp, habs, log_hundredth]
    decide
  rw [hulp]
  have hdiv : ((1 : ℚ) / 100) / 2 ^ (-59 : ℤ) =
      576460752303423488 / 100 := by norm_num
  rw [hdiv, rne_eq_succ_of _ 5764607523034234 (by norm_num) (by norm_num)
    (by norm_num)]
  norm_num

/-- The exact product `2^-1074 * c001` lies in the binade
`[2^-1081, 2^-1080)`. -/
lemma log_underflow :
    Int.log 2 (5764607523034235 / 2 ^ 1133 : ℚ) = -1081 :=
  int_log_eq _ (-1081) (by norm_num) (by norm_num) (by norm_num)

/-- Round-to-nearest-even of a value of magnitude at least one is
nonzero. -/
lemma rne_ne_zero_of_one_le_abs (x : ℚ) (h : 1 ≤ |x|) : rne x ≠ 0 := by
  rcases abs_cases x with ⟨he, hx0⟩ | ⟨he, hx0⟩
  · have hx : 1 ≤ x := by rw [he] at h; exact h
    have hf : 1 ≤ ⌊x⌋ := by
      rw [Int.le_floor]
      exact_mod_cast hx
    simp only [rne]
    split_ifs <;> omega
  · have hx : x ≤ -1 := by rw [he] at h; linarith
    have hf : ⌊x⌋ ≤ -1 := Int.floor_le_neg_one_iff.mpr (by linarith)
    simp only [rne]
    split_ifs with h1 h2 h3
    · omega
    · intro h0
      have hfe : ⌊x⌋ = -1 := by omega
      rw [hfe] at h1
      push_cast at h1
      linarith
    · omega
    · intro h0
      have hfe : ⌊x⌋ = -1 := by omega
      rw [hfe] at h1
      push_cast at h1
      linarith

/-- Binary64 rounding cannot yield zero at or above the smallest
subnormal magnitude `2^-1074`. -/
lemma roundF64_ne_zero (q : ℚ) (h : (2 : ℚ) ^ (-1074 : ℤ) ≤ |q|) :
    roundF64 q ≠ 0 := by
  have hq0 : q ≠ 0 := by
    intro h0
    rw [h0, abs_zero] at h
    have : (0 : ℚ) < 2 ^ (-1074 : ℤ) := by positivity
    linarith
  rw [roundF64, if_neg hq0]
  have he : (0 : ℚ) < 2 ^ ulpExp q := by positivity
  refine mul_ne_zero ?_ (by positivity)
  have habs : 1 ≤ |q / 2 ^ ulpExp q| := by
    rw [abs_div, abs_of_pos he, le_div_iff₀ he, one_mul]
    rcases le_or_lt (Int.log 2 |q| - 52) (-1074) with hc | hc
    · rw [ulpExp, max_eq_right hc]
      exact h
    · rw [ulpExp, max_eq_left hc.le]
      have hlog : (2 : ℚ) ^ (Int.log 2 |q|) ≤ |q| := by
        have := Int.zpow_log_le_self (b := 2) (by norm_num)
          (abs_pos.mpr hq0)
        push_cast at this
        exact this
      calc (2 : ℚ) ^ (Int.log 2 |q| - 52) ≤ 2 ^ (Int.log 2 |q|) :=
            zpow_le_zpow_right₀ one_le_two (by omega)
        _ ≤ |q| := hlog
  have hne := rne_ne_zero_of_one_le_abs _ habs
  exact_mod_cast hne

/-- C9 (counterexample): at the representable nonzero initial value
`2^-1074` (the float64 `5e-324`), the float64 product with 0.01
underflows, so the perturbation scale computed by
`N.where(parvals == 0., 0.01, parvals * 0.01)` is zero for a nonzero
initial value. -/
theorem parerrs_underflow_counterexample :
    ((2 : ℚ) ^ (-1074 : ℤ) ≠ 0) ∧
    (parerrs [(2 : ℚ) ^ (-1074 : ℤ)]).getD 0 0 = 0 := by
  have hv : ((2 : ℚ) ^ (-1074 : ℤ)) ≠ 0 := by positivity
  refine ⟨hv, ?_⟩
  have hre : (parerrs [(2 : ℚ) ^ (-1074 : ℤ)]).getD 0 0 =
      fmul ((2 : ℚ) ^ (-1074 : ℤ)) c001 := by
    simp only [parerrs, List.map_cons, List.map_nil, List.getD_cons_zero,
      if_neg hv]
  rw [hre, fmul, c001_eq]
  have hq2 : ((2 : ℚ) ^ (-1074 : ℤ)) * (5764607523034235 / 2 ^ 59) =
      5764607523034235 / 2 ^ 1133 := by
    rw [zpow_neg]
    norm_num
  rw [hq2, roundF64, if_neg (by norm_num)]
  have hulp : ulpExp (5764607523034235 / 2 ^ 1133 : ℚ) = -1074 := by
    rw [ulpExp, abs_of_pos (by norm_num), log_underflow]
    decide
  rw [hulp]
  have hdiv : (5764607523034235 / 2 ^ 1133 : ℚ) / 2 ^ (-1074 : ℤ) =
      5764607523034235 / 2 ^ 59 := by norm_num
  rw [hdiv, rne_eq_of _ 0 (by norm_num) (by norm_num)]
  norm_num

/-- C9 (amended): under float64 semantics the perturbation scale is
pointwise the double 0.01 when the initial value is zero and the
binary64 product of the initial value and 0.01 otherwise; the scale is
nonzero for every initial value of magnitude at least `2^-1022` (every
normal double), though it can underflow to zero for tiny subnormal
values. -/
theorem parerrs_float_pointwise (parvals : List ℚ) :
    (parerrs parvals).length = parvals.length ∧
    ∀ i (hi : i < parvals.length),
      (parerrs parvals)[i]? =
        some (if parvals[i] = 0 then c001 else fmul parvals[i] c001) ∧
      ((2 : ℚ) ^ (-1022 : ℤ) ≤ |parvals[i]| →
        (parerrs parvals).getD i 0 ≠ 0) := by
  refine ⟨by simp [parerrs], ?_⟩
  intro i hi
  have hmap : (parerrs parvals)[i]? =
      some (if parvals[i] = 0 then c001 else fmul parvals[i] c001) := by
    simp [parerrs, List.getElem?_map, List.getElem?_eq_getElem hi]
  refine ⟨hmap, ?_⟩
  intro hv
  have hvne : parvals[i] ≠ 0 := by
    intro h0
    rw [h0, abs_zero] at hv
    have : (0 : ℚ) < 2 ^ (-1022 : ℤ) := by positivity
    linarith
  rw [List.getD_eq_getElem?_getD, hmap]
  simp only [Option.getD_some, if_neg hvne]
  rw [fmul]
  apply roundF64_ne_zero
  rw [abs_mul]
  have hc : |c001| = 5764607523034235 / 2 ^ 59 := by
    rw [c001_eq]
    norm_num
  calc (2 : ℚ) ^ (-1074 : ℤ) ≤ 2 ^ (-1022 : ℤ) * 2 ^ (-52 : ℤ) := by
        rw [← zpow_add₀ (two_ne_zero)]
        norm_num
    _ ≤ |parvals[i]| * |c001| := by
        apply mul_le_mul hv ?_ (by positivity) (abs_nonneg _)
        rw [hc]
        norm_num

/-- Witness for `parerrs_float_pointwise` at the concrete normal-range
initial value 1. -/
theorem parerrs_float_pointwise_witness :
    (parerrs [(1 : ℚ)]).getD 0 0 ≠ 0 :=
  ((parerrs_float_pointwise [(1 : ℚ)]).2 0 (by decide)).2
    (le_trans (zpow_le_one_of_nonpos₀ one_le_two (by decide))
      (le_of_eq (by simp)))

/-- C7: the initial batch built in `doMCMC` has exactly `nwalkers`
parameter vectors, each of length the number of free parameters. -/
theorem p0_shape (z : ℕ → ℕ → ℚ) (parvals : List ℚ) (nwalkers : ℕ) :
    (p0 z parvals nwalkers).length = nwalkers ∧
    ∀ v ∈ p0 z parvals nwalkers, v.length = parvals.length := by
  constructor
  · simp [p0]
  · intro v hv
    simp only [p0, List.mem_map] at hv
    obtain ⟨i, -, rfl⟩ := hv
    simp [numpyNormal]

/-- Witness for `p0_shape` at a concrete configuration. -/
theorem p0_shape_witness :
    (p0 (fun _ _ => 1) [(3 : ℚ), 4] 5).length = 5 :=
  (p0_shape (fun _ _ => 1) [(3 : ℚ), 4] 5).1

/-- C10: a header entry renders an empty catalogue unit as the literal
string "0" and a non-empty unit verbatim. -/
theorem headerEntry_unit_rendering (params : List ParamDesc) (idx : Int)
    (p : ParamDesc) (hp : pyGet params (idx - 1) = some p) :
    (p.unit = "" →
      headerEntry params idx =
        some (toString idx ++ " " ++ p.name ++ " " ++ "0")) ∧
    (p.unit ≠ "" →
      headerEntry params idx =
        some (toString idx ++ " " ++ p.name ++ " " ++ p.unit)) := by
  constructor
  · intro h
    simp [headerEntry, hp, h]
  · intro h
    simp [headerEntry, hp, h]

/-- Witness for `headerEntry_unit_rendering` at a concrete catalogue. -/
theorem headerEntry_unit_witness :
    headerEntry [⟨"nH", ""⟩] 1 =
      some (toString (1 : Int) ++ " " ++ "nH" ++ " " ++ "0") :=
  (headerEntry_unit_rendering [⟨"nH", ""⟩] 1 ⟨"nH", ""⟩ (by decide)).1 rfl

/-- C1: a successful pool evaluation returns exactly one result per
batch item, in input order, with result `i` determined by input `i`
alone; a batch is never returned partially or reordered. -/
theorem poolEvaluate_index_fidelity {α : Type _} (ev : α → ℕ → Option ℚ)
    (rb : ℕ) (batch : List α) (rs : List ℚ)
    (h : poolEvaluate ev rb batch = some rs) :
    rs.length = batch.length ∧
    ∀ i (hi : i < batch.length), rs[i]? = evalItem ev rb batch[i] := by
  induction batch generalizing rs with
  | nil =>
    simp only [poolEvaluate, Option.some.injEq] at h
    subst h
    exact ⟨rfl, fun i hi => absurd hi (by simp)⟩
  | cons v vs ih =>
    unfold poolEvaluate at h
    cases hv : evalItem ev rb v with
    | none =>
      rw [hv] at h
      simp at h
    | some r =>
      cases hvs : poolEvaluate ev rb vs with
      | none =>
        rw [hv, hvs] at h
        simp at h
      | some rs0 =>
        rw [hv, hvs] at h
        obtain rfl : r :: rs0 = rs := by simpa using h
        obtain ⟨hlen, hidx⟩ := ih rs0 hvs
        constructor
        · simp [hlen]
        · intro i hi
          cases i with
          | zero =>
            simp [hv]
          | succ n =>
            have hn : n < vs.length := by simpa using hi
            simpa using hidx n hn

/-- Witness for `poolEvaluate_index_fidelity` at a concrete batch. -/
theorem poolEvaluate_index_fidelity_witness :
    ([(5 : ℚ)] : List ℚ)[0]? =
      evalItem (fun (v : ℚ) _ => some v) 3 ([(5 : ℚ)] : List ℚ)[0] :=
  (poolEvaluate_index_fidelity (fun (v : ℚ) _ => some v) 3
    [(5 : ℚ)] [(5 : ℚ)] rfl).2 0 (by decide)

/-- An evaluation stream that always fails makes `attemptEval` fail for
every starting attempt and fuel. -/
lemma attemptEval_allfail (ev : ℕ → Option ℚ) (h : ∀ n, ev n = none)
    (a fuel : ℕ) : attemptEval ev a fuel = none := by
  induction fuel generalizing a with
  | zero => rfl
  | succ k ih =>
    unfold attemptEval
    rw [h a]
    exact ih (a + 1)

/-- An evaluation stream that always fails consumes all the fuel of the
retry loop: one attempt per unit of fuel. -/
lemma attemptsUsed_allfail (ev : ℕ → Option ℚ) (h : ∀ n, ev n = none)
    (a fuel : ℕ) : attemptsUsed ev a fuel = fuel := by
  induction fuel generalizing a with
  | zero => rfl
  | succ k ih =>
    unfold attemptsUsed
    rw [h a, ih (a + 1)]

/-- A batch containing an item whose evaluation yields no result is
aborted as a whole. -/
lemma poolEvaluate_abort {α : Type _} (ev : α → ℕ → Option ℚ) (rb : ℕ)
    (v : α) (hv : evalItem ev rb v = none) (batch : List α)
    (hmem : v ∈ batch) : poolEvaluate ev rb batch = none := by
  induction batch with
  | nil => cases hmem
  | cons w ws ih =>
    unfold poolEvaluate
    rcases List.mem_cons.mp hmem with rfl | hmem2
    · rw [hv]
    · rw [ih hmem2]
      cases evalItem ev rb w <;> rfl

/-- C6: an always-failing batch item is attempted exactly
`retryBound + 1` times, yields no result, and surfaces a fatal failure
that aborts any batch containing it. -/
theorem retry_bound_exact {α : Type _} (ev : α → ℕ → Option ℚ)
    (retryBound : ℕ) (v : α) (h : ∀ n, ev v n = none) :
    itemAttempts ev retryBound v = retryBound + 1 ∧
    evalItem ev retryBound v = none ∧
    ∀ batch : List α, v ∈ batch →
      poolEvaluate ev retryBound batch = none := by
  have he : evalItem ev retryBound v = none :=
    attemptEval_allfail (ev v) h 0 (retryBound + 1)
  exact ⟨attemptsUsed_allfail (ev v) h 0 (retryBound + 1), he,
    fun batch hm => poolEvaluate_abort ev retryBound v he batch hm⟩

/-- Witness for `retry_bound_exact` at a concrete item. -/
theorem retry_bound_exact_witness :
    itemAttempts (fun (_ : ℚ) _ => (none : Option ℚ)) 3 0 = 4 :=
  (retry_bound_exact (fun (_ : ℚ) _ => (none : Option ℚ)) 3 0
    (fun _ => rfl)).1

/-- `zipRows` pairs rows with likelihood values, truncating at the
shorter input (numpy shapes always agree here). -/
lemma zipRows_length (rs : List (List ℚ)) (vs : List ℚ) :
    (zipRows rs vs).length = min rs.length vs.length := by
  induction rs generalizing vs with
  | nil => simp [zipRows]
  | cons r rs ih =>
    cases vs with
    | nil => simp [zipRows]
    | cons v vs =>
      simp only [zipRows, List.length_cons, ih]
      omega

/-- Indexing into a `zipRows` slice recovers the parameter row with the
negated likelihood value appended. -/
lemma zipRows_getElem? (rs : List (List ℚ)) (vs : List ℚ) (i : ℕ)
    (h1 : i < rs.length) (h2 : i < vs.length) :
    (zipRows rs vs)[i]? = some (rs.getD i [] ++ [-(vs.getD i 0)]) := by
  induction rs generalizing vs i with
  | nil => simp at h1
  | cons r rs ih =>
    cases vs with
    | nil => simp at h2
    | cons v vs =>
      cases i with
      | zero => simp [zipRows]
      | succ n =>
        simp only [zipRows, List.getElem?_cons_succ, List.getD_cons_succ]
        exact ih vs n (by simpa using h1) (by simpa using h2)

/-- For rectangular inputs, `dstackRows` yields walkers-times-iterations
rows. -/
lemma dstackRows_length (chain : List (List (List ℚ)))
    (lnprob : List (List ℚ)) (nI : ℕ)
    (h1 : ∀ x ∈ chain, x.length = nI) (h2 : ∀ x ∈ lnprob, x.length = nI)
    (h3 : chain.length = lnprob.length) :
    (dstackRows chain lnprob).length = chain.length * nI := by
  induction chain generalizing lnprob with
  | nil => simp [dstackRows]
  | cons c cs ih =>
    cases lnprob with
    | nil => simp at h3
    | cons l ls =>
      simp only [dstackRows, List.length_append, zipRows_length]
      rw [h1 c (by simp), h2 l (by simp),
        ih ls (fun x hx => h1 x (by simp [hx]))
          (fun x hx => h2 x (by simp [hx])) (by simpa using h3)]
      rw [Nat.min_self, List.length_cons, Nat.succ_mul, Nat.add_comm]

/-- Walker-major indexing into the dstacked rows: entry `w * nI + i` is
walker `w`'s iteration `i`. -/
lemma dstackRows_getElem? (chain : List (List (List ℚ)))
    (lnprob : List (List ℚ)) (nI w i : ℕ)
    (h1 : ∀ x ∈ chain, x.length = nI) (h2 : ∀ x ∈ lnprob, x.length = nI)
    (hw : w < chain.length) (hw2 : w < lnprob.length) (hi : i < nI) :
    (dstackRows chain lnprob)[w * nI + i]? =
      some ((chain.getD w []).getD i []
            ++ [-((lnprob.getD w []).getD i 0)]) := by
  induction chain generalizing lnprob w with
  | nil => simp at hw
  | cons c cs ih =>
    cases lnprob with
    | nil => simp at hw2
    | cons l ls =>
      have hcl : c.length = nI := h1 c (by simp)
      have hll : l.length = nI := h2 l (by simp)
      have hzlen : (zipRows c l).length = nI := by
        rw [zipRows_length, hcl, hll, Nat.min_self]
      cases w with
      | zero =>
        simp only [Nat.zero_mul, Nat.zero_add, dstackRows]
        rw [List.getElem?_append, if_pos (by rw [hzlen]; exact hi)]
        rw [zipRows_getElem? c l i (by omega) (by omega)]
        simp
      | succ n =>
        have hidxeq : (n + 1) * nI + i = nI + (n * nI + i) := by
          rw [Nat.succ_mul]; ring
        simp only [dstackRows]
        rw [hidxeq,
          List.getElem?_append_right
            (by rw [hzlen]; exact Nat.le_add_right nI (n * nI + i)),
          hzlen, Nat.add_sub_cancel_left]
        simp only [List.getD_cons_succ]
        exact ih ls n (fun x hx => h1 x (by simp [hx]))
          (fun x hx => h2 x (by simp [hx]))
          (by simpa using hw) (by simpa using hw2)

/-- Rows of a `zipRows` slice are one longer than the parameter rows. -/
lemma zipRows_row_length (rs : List (List ℚ)) (vs : List ℚ) (nP : ℕ)
    (h : ∀ r ∈ rs, r.length = nP) :
    ∀ row ∈ zipRows rs vs, row.length = nP + 1 := by
  induction rs generalizing vs with
  | nil => intro row hrow; simp [zipRows] at hrow
  | cons r rs ih =>
    cases vs with
    | nil => intro row hrow; simp [zipRows] at hrow
    | cons v vs =>
      intro row hrow
      simp only [zipRows, List.mem_cons] at hrow
      rcases hrow with rfl | h2
      · simp [h r (by simp)]
      · exact ih vs (fun x hx => h x (by simp [hx])) row h2

/-- Every dstacked row is one field longer than the parameter count. -/
lemma dstackRows_row_length (chain : List (List (List ℚ)))
    (lnprob : List (List ℚ)) (nP : ℕ)
    (h : ∀ x ∈ chain, ∀ r ∈ x, r.length = nP) :
    ∀ row ∈ dstackRows chain lnprob, row.length = nP + 1 := by
  induction chain generalizing lnprob with
  | nil => intro row hrow; simp [dstackRows] at hrow
  | cons c cs ih =>
    cases lnprob with
    | nil => intro row hrow; simp [dstackRows] at hrow
    | cons l ls =>
      intro row hrow
      simp only [dstackRows, List.mem_append] at hrow
      rcases hrow with hl | hr
      · exact zipRows_row_length c l nP (h c (by simp)) row hl
      · exact ih ls (fun x hx => h x (by simp [hx])) row hr

/-- A successful `headerEntries` run returns one entry per index, in
order. -/
lemma headerEntries_sound (params : List ParamDesc) (paridxs : List Int)
    (es : List String) (h : headerEntries params paridxs = some es) :
    es.length = paridxs.length ∧
    ∀ k (hk : k < paridxs.length),
      es[k]? = headerEntry params paridxs[k] := by
  induction paridxs generalizing es with
  | nil =>
    simp only [headerEntries, Option.some.injEq] at h
    subst h
    exact ⟨rfl, fun k hk => absurd hk (by simp)⟩
  | cons idx rest ih =>
    unfold headerEntries at h
    cases he : headerEntry params idx with
    | none =>
      rw [he] at h
      simp at h
    | some e =>
      cases hes : headerEntries params rest with
      | none =>
        rw [he, hes] at h
        simp at h
      | some es0 =>
        rw [he, hes] at h
        obtain rfl : e :: es0 = es := by simpa using h
        obtain ⟨hlen, hidx⟩ := ih es0 hes
        refine ⟨by simp [hlen], ?_⟩
        intro k hk
        cases k with
        | zero => simp [he]
        | succ n =>
          have hn : n < rest.length := by simpa using hk
          simpa using hidx n hn

/-- A 1-based index into the catalogue makes `headerEntry` succeed with
the catalogue entry at position `idx - 1`. -/
lemma headerEntry_valid (params : List ParamDesc) (idx : Int)
    (h1 : 1 ≤ idx) (h2 : idx ≤ params.length) :
    ∃ p, params[(idx - 1).toNat]? = some p ∧
      headerEntry params idx =
        some (toString idx ++ " " ++ p.name ++ " " ++
              (if p.unit = "" then "0" else p.unit)) := by
  have hlt : (idx - 1).toNat < params.length := by omega
  have hneg : ¬ idx - 1 < 0 := by omega
  have hget : pyGet params (idx - 1) = params[(idx - 1).toNat]? := by
    simp [pyGet, hneg]
  obtain ⟨p, hp⟩ : ∃ p, params[(idx - 1).toNat]? = some p := by
    rw [List.getElem?_eq_getElem hlt]
    exact ⟨_, rfl⟩
  refine ⟨p, hp, ?_⟩
  simp only [headerEntry, hget, hp]

/-- C4: for every position `k` of `paridxs`, header entry `k` displays
index `paridxs[k]` with the name and unit of the catalogue entry
`params[paridxs[k] - 1]` (1-based), and entries appear in `paridxs`
order. -/
theorem headerEntries_catalogue_order (params : List ParamDesc)
    (paridxs : List Int)
    (hvalid : ∀ idx ∈ paridxs, 1 ≤ idx ∧ idx ≤ params.length) :
    ∃ es, headerEntries params paridxs = some es ∧
      es.length = paridxs.length ∧
      ∀ k (hk : k < paridxs.length),
        ∃ p, params[(paridxs[k] - 1).toNat]? = some p ∧
          es[k]? = some (toString paridxs[k] ++ " " ++ p.name ++ " " ++
                         (if p.unit = "" then "0" else p.unit)) := by
  induction paridxs with
  | nil => exact ⟨[], rfl, rfl, fun k hk => absurd hk (by simp)⟩
  | cons idx rest ih =>
    obtain ⟨p, hp, he⟩ := headerEntry_valid params idx
      (hvalid idx (by simp)).1 (hvalid idx (by simp)).2
    obtain ⟨es0, hes0, hlen, hidx⟩ := ih (fun j hj => hvalid j (by simp [hj]))
    refine ⟨(toString idx ++ " " ++ p.name ++ " " ++
      (if p.unit = "" then "0" else p.unit)) :: es0, ?_, by simp [hlen], ?_⟩
    · simp only [headerEntries, he, hes0]
    · intro k hk
      cases k with
      | zero => exact ⟨p, by simpa using hp, by simp⟩
      | succ n =>
        have hn : n < rest.length := by simpa using hk
        obtain ⟨q, hq, hq2⟩ := hidx n hn
        exact ⟨q, by simpa using hq, by simpa using hq2⟩

/-- Witness for `headerEntries_catalogue_order` at a concrete
catalogue. -/
theorem headerEntries_catalogue_order_witness :
    (headerEntries paramsEx paridxsEx).isSome = true := by
  obtain ⟨es, he, -, -⟩ :=
    headerEntries_catalogue_order paramsEx paridxsEx (by decide)
  rw [he]
  rfl

/-- C3: a successfully written chain file has its single header line at
position 3 — the two fixed comment lines and the size line precede it,
data rows follow — and that line joins one entry per parameter index of
`paridxs` and a trailing "Chi-Squared" column with spaces. -/
theorem writeXSpecChain_header (fmtG : ℚ → String)
    (chain : List (List (List ℚ))) (lnprob : List (List ℚ))
    (params : List ParamDesc) (paridxs : List Int) (lines : List String)
    (h : writeXSpecChain fmtG chain lnprob params paridxs = some lines) :
    ∃ es, headerEntries params paridxs = some es ∧
      es.length = paridxs.length ∧
      (∀ k (hk : k < paridxs.length),
        es[k]? = headerEntry params paridxs[k]) ∧
      lines[3]? =
        some ("!" ++ String.intercalate " " (es ++ ["Chi-Squared"])) ∧
      lines.take 3 = [bannerLine1, bannerLine2,
        lengthLine (shape0 chain * shape1 chain) (shape2 chain + 1)] := by
  unfold writeXSpecChain at h
  cases hhe : headerEntries params paridxs with
  | none =>
    rw [hhe] at h
    simp at h
  | some es =>
    rw [hhe] at h
    obtain rfl : _ = lines := Option.some.inj h
    obtain ⟨hlen, hidx⟩ := headerEntries_sound params paridxs es hhe
    refine ⟨es, rfl, hlen, hidx, ?_, rfl⟩
    rw [List.getElem?_append, if_pos (by simp)]
    rfl

/-- Witness for `writeXSpecChain_header` at a concrete chain. -/
theorem writeXSpecChain_header_witness :
    ((writeXSpecChain cfmt chainEx lnprobEx paramsEx paridxsEx).getD
      []).take 3 =
      [bannerLine1, bannerLine2,
       lengthLine (shape0 chainEx * shape1 chainEx) (shape2 chainEx + 1)] := by
  obtain ⟨es, -, -, -, -, h5⟩ :=
    writeXSpecChain_header cfmt chainEx lnprobEx paramsEx paridxsEx
      ((writeXSpecChain cfmt chainEx lnprobEx paramsEx paridxsEx).getD [])
      rfl
  exact h5

/-- C2: after the four leading lines, a successfully written chain file
contains exactly one data row per (walker, iteration) pair, walker-major,
each row joining that iteration's parameter values and the negated
log-likelihood with tab characters. -/
theorem writeXSpecChain_rows (fmtG : ℚ → String)
    (chain : List (List (List ℚ))) (lnprob : List (List ℚ))
    (params : List ParamDesc) (paridxs : List Int)
    (nW nI : ℕ) (lines : List String)
    (hcW : chain.length = nW) (hcI : ∀ x ∈ chain, x.length = nI)
    (hlW : lnprob.length = nW) (hlI : ∀ x ∈ lnprob, x.length = nI)
    (h : writeXSpecChain fmtG chain lnprob params paridxs = some lines) :
    (lines.drop 4).length = nW * nI ∧
    ∀ w i, w < nW → i < nI →
      (lines.drop 4)[w * nI + i]? =
        some (String.intercalate "\t"
          (((chain.getD w []).getD i []
            ++ [-((lnprob.getD w []).getD i 0)]).map fmtG)) := by
  unfold writeXSpecChain at h
  cases hhe : headerEntries params paridxs with
  | none =>
    rw [hhe] at h
    simp at h
  | some es =>
    rw [hhe] at h
    obtain rfl : _ = lines := Option.some.inj h
    have hdrop : (([bannerLine1, bannerLine2,
        lengthLine (shape0 chain * shape1 chain) (shape2 chain + 1),
        "!" ++ String.intercalate " " (es ++ ["Chi-Squared"])]
        ++ (dstackRows chain lnprob).map
            (fun row => String.intercalate "\t" (row.map fmtG))).drop 4) =
        (dstackRows chain lnprob).map
          (fun row => String.intercalate "\t" (row.map fmtG)) := rfl
    constructor
    · rw [hdrop, List.length_map,
        dstackRows_length chain lnprob nI hcI hlI (by rw [hcW, hlW]), hcW]
    · intro w i hw hi
      rw [hdrop, List.getElem?_map,
        dstackRows_getElem? chain lnprob nI w i hcI hlI
          (by omega) (by omega) hi]
      rfl

/-- Witness for `writeXSpecChain_rows` at a concrete chain: the last data
row (walker 1, iteration 1). -/
theorem writeXSpecChain_rows_witness :
    (((writeXSpecChain cfmt chainEx lnprobEx paramsEx paridxsEx).getD
      []).drop 4)[1 * 2 + 1]? =
      some (String.intercalate "\t"
        (((chainEx.getD 1 []).getD 1 []
          ++ [-((lnprobEx.getD 1 []).getD 1 0)]).map cfmt)) :=
  (writeXSpecChain_rows cfmt chainEx lnprobEx paramsEx paridxsEx 2 2
    ((writeXSpecChain cfmt chainEx lnprobEx paramsEx paridxsEx).getD [])
    rfl (by decide) rfl (by decide) rfl).2 1 1 (by decide) (by decide)

/-- C8: the size line of a successfully written chain file is consistent
with its contents — it declares exactly the number of data rows that
follow and, as width, the number of tab-joined fields of every data
row. -/
theorem writeXSpecChain_size_line (fmtG : ℚ → String)
    (chain : List (List (List ℚ))) (lnprob : List (List ℚ))
    (params : List ParamDesc) (paridxs : List Int)
    (nW nI nP : ℕ) (lines : List String)
    (hcW : chain.length = nW) (hcI : ∀ x ∈ chain, x.length = nI)
    (hcP : ∀ x ∈ chain, ∀ r ∈ x, r.length = nP)
    (hlW : lnprob.length = nW) (hlI : ∀ x ∈ lnprob, x.length = nI)
    (hWpos : 0 < nW) (hIpos : 0 < nI)
    (h : writeXSpecChain fmtG chain lnprob params paridxs = some lines) :
    lines[2]? = some (lengthLine ((lines.drop 4).length) (nP + 1)) ∧
    (lines.drop 4).length = nW * nI ∧
    ∀ l ∈ lines.drop 4, ∃ fields : List String,
      fields.length = nP + 1 ∧ l = String.intercalate "\t" fields := by
  have hs1 : shape1 chain = nI := by
    cases chain with
    | nil => rw [← hcW] at hWpos; simp at hWpos
    | cons c cs => simpa [shape1] using hcI c (by simp)
  have hs2 : shape2 chain = nP := by
    cases chain with
    | nil => rw [← hcW] at hWpos; simp at hWpos
    | cons c cs =>
      have hclen : c.length = nI := hcI c (by simp)
      cases c with
      | nil => rw [← hclen] at hIpos; simp at hIpos
      | cons r rs => simpa [shape2] using hcP (r :: rs) (by simp) r (by simp)
  unfold writeXSpecChain at h
  cases hhe : headerEntries params paridxs with
  | none =>
    rw [hhe] at h
    simp at h
  | some es =>
    rw [hhe] at h
    obtain rfl : _ = lines := Option.some.inj h
    have hdrop : (([bannerLine1, bannerLine2,
        lengthLine (shape0 chain * shape1 chain) (shape2 chain + 1),
        "!" ++ String.intercalate " " (es ++ ["Chi-Squared"])]
        ++ (dstackRows chain lnprob).map
            (fun row => String.intercalate "\t" (row.map fmtG))).drop 4) =
        (dstackRows chain lnprob).map
          (fun row => String.intercalate "\t" (row.map fmtG)) := rfl
    have hlen2 : (([bannerLine1, bannerLine2,
        lengthLine (shape0 chain * shape1 chain) (shape2 chain + 1),
        "!" ++ String.intercalate " " (es ++ ["Chi-Squared"])]
        ++ (dstackRows chain lnprob).map
            (fun row => String.intercalate "\t" (row.map fmtG))).drop
          4).length = nW * nI := by
      rw [hdrop, List.length_map,
        dstackRows_length chain lnprob nI hcI hlI (by rw [hcW, hlW]), hcW]
    refine ⟨?_, hlen2, ?_⟩
    · rw [hlen2, List.getElem?_append, if_pos (by simp)]
      show some (lengthLine (shape0 chain * shape1 chain)
        (shape2 chain + 1)) = some (lengthLine (nW * nI) (nP + 1))
      rw [hs1, hs2]
      simp only [shape0, hcW]
    · intro l hl
      rw [hdrop] at hl
      simp only [List.mem_map] at hl
      obtain ⟨row, hrow, rfl⟩ := hl
      exact ⟨row.map fmtG,
        by rw [List.length_map];
           exact dstackRows_row_length chain lnprob nP hcP row hrow, rfl⟩

/-- Witness for `writeXSpecChain_size_line` at a concrete chain. -/
theorem writeXSpecChain_size_line_witness :
    ((writeXSpecChain cfmt chainEx lnprobEx paramsEx paridxsEx).getD
      [])[2]? =
      some (lengthLine
        ((((writeXSpecChain cfmt chainEx lnprobEx paramsEx
          paridxsEx).getD []).drop 4).length) (1 + 1)) :=
  (writeXSpecChain_size_line cfmt chainEx lnprobEx paramsEx paridxsEx
    2 2 1
    ((writeXSpecChain cfmt chainEx lnprobEx paramsEx paridxsEx).getD [])
    rfl (by decide) (by decide) rfl (by decide) (by decide) (by decide)
    rfl).1

end XspecEmcee
